import Mathlib

/-
Verification of the statistics-preparation pipeline of pvi (pvi.c):
alignment loading with row/column reduction (MSARead), inverse-neighborhood
sequence reweighting (MSAReweightSequences), weighted marginal counting
(MSACountMarginals, standard and gap-reduced conventions), and the
stochastic effective-sample-size estimator (MSAEstimateSampleSize).

Numeric model: the C code computes with IEEE doubles; every double value is
a rational number, so the loader, reweighter and marginal counter are
embedded over ℚ (exact arithmetic, executable).  The sample-size estimator
uses exp/log and is embedded over ℝ; its pseudo-random inputs
(RandomInt/RandomUniform and SampleCategoricalDistribution, defined outside
pvi.c) are supplied as oracle parameters.
-/

set_option maxHeartbeats 1000000

/-! ## Alignment state for the rational-arithmetic phases -/

/-- Post-load alignment state: dimensions, the code matrix `seq`
(row-major `seq s i` as in the C macro `seq(s,i)`), per-sequence
weights and the effective sample size field `nEff`. -/
structure AlignmentQ where
  nSeqs : ℕ
  nSites : ℕ
  nCodes : ℕ
  seq : ℕ → ℕ → ℕ
  weights : ℕ → ℚ
  nEff : ℚ

/-! ## MSAReweightSequences (pvi.c lines 566-625) -/

/-- Hamming identity count of rows `s` and `t`:
`for n: id += (seq(s,n) == seq(t,n))`. -/
def seqId (ali : AlignmentQ) (s t : ℕ) : ℕ :=
  ((Finset.range ali.nSites).filter (fun n => ali.seq s n = ali.seq t n)).card

/-- The neighborhood test `id >= (1 - theta) * nSites`. -/
def nbrCond (ali : AlignmentQ) (theta : ℚ) (s t : ℕ) : Bool :=
  decide ((1 - theta) * (ali.nSites : ℚ) ≤ (seqId ali s t : ℚ))

/-- One step of the sequential pair loop: when the pair `(p.1, p.2)` passes
the neighborhood test, add 1 to both `weights[p.1]` and `weights[p.2]`. -/
def seqStep (ali : AlignmentQ) (theta : ℚ) (w : ℕ → ℚ) (p : ℕ × ℕ) : ℕ → ℚ :=
  if nbrCond ali theta p.1 p.2 then
    fun u => if u = p.1 then w u + 1 else if u = p.2 then w u + 1 else w u
  else w

/-- Inner loop of the sequential pass for a fixed `s`: the pairs `(s, t)`
for `t = s+1 .. n-1`. -/
def innerPairs (n s : ℕ) : List (ℕ × ℕ) :=
  ((List.range n).drop (s + 1)).map (fun t => (s, t))

/-- The ordered list of unordered pairs visited by the sequential
double loop `for s < nSeqs - 1, for t in (s, nSeqs)`. -/
def pairList (n : ℕ) : List (ℕ × ℕ) :=
  (List.range n).flatMap (innerPairs n)

/-- Sequential (single-core) neighborhood sizes: weights start at 1.0 and
each qualifying unordered pair increments both endpoints. -/
def seqNeighborWeights (ali : AlignmentQ) (theta : ℚ) : ℕ → ℚ :=
  (pairList ali.nSeqs).foldl (seqStep ali theta) (fun _ => 1)

/-- Parallel (OpenMP) neighborhood size of sequence `s`: all ordered pairs
`(s, t)`, `t ≠ s`, are tested independently, accumulating only into
`weights[s]`. -/
def parNeighborWeight (ali : AlignmentQ) (theta : ℚ) (s : ℕ) : ℚ :=
  (List.range ali.nSeqs).foldl
    (fun ws t => if s ≠ t then (if nbrCond ali theta s t then ws + 1 else ws) else ws) 1

/-- Number of other sequences within the neighborhood of `s`. -/
def neighborCount (ali : AlignmentQ) (theta : ℚ) (s : ℕ) : ℕ :=
  ((List.range ali.nSeqs).filter (fun t => decide (s ≠ t) && nbrCond ali theta s t)).length

/-- MSAReweightSequences with the single-core (sequential, symmetric) pair
loop: if `theta ∈ [0,1]` each weight becomes the inverse neighborhood size,
otherwise weights stay 1; all weights are then multiplied by `scale`, and
`nEff` is recomputed as the sum of the weights. -/
def MSAReweightSequences (ali : AlignmentQ) (theta scale : ℚ) : AlignmentQ :=
  let w1 : ℕ → ℚ :=
    if 0 ≤ theta ∧ theta ≤ 1 then fun s => 1 / seqNeighborWeights ali theta s
    else fun _ => 1
  let w2 : ℕ → ℚ := fun s => w1 s * scale
  { ali with weights := w2, nEff := ∑ s in Finset.range ali.nSeqs, w2 s }

/-- MSAReweightSequences with the parallel (ordered-pairs) loop body. -/
def MSAReweightSequencesPar (ali : AlignmentQ) (theta scale : ℚ) : AlignmentQ :=
  let w1 : ℕ → ℚ :=
    if 0 ≤ theta ∧ theta ≤ 1 then fun s => 1 / parNeighborWeight ali theta s
    else fun _ => 1
  let w2 : ℕ → ℚ := fun s => w1 s * scale
  { ali with weights := w2, nEff := ∑ s in Finset.range ali.nSeqs, w2 s }

/-! ## MSACountMarginals (pvi.c lines 627-750) -/

/-- Standard first-order marginals (pvi.c 736-738):
`fi(i, seq(s,i)) += weights[s] * Zinv` with `Zinv = 1/nEff`. -/
def fiStd (ali : AlignmentQ) (i a : ℕ) : ℚ :=
  ∑ s in Finset.range ali.nSeqs,
    if ali.seq s i = a then ali.weights s * (1 / ali.nEff) else 0

/-- Standard second-order marginals (pvi.c 745-748):
`fij(i, j, seq(s,i), seq(s,j)) += weights[s] * Zinv`. -/
def fijStd (ali : AlignmentQ) (i j a b : ℕ) : ℚ :=
  ∑ s in Finset.range ali.nSeqs,
    if ali.seq s i = a ∧ ali.seq s j = b then ali.weights s * (1 / ali.nEff) else 0

/-- Gap frequency at site `i` (pvi.c 637-642):
`gapi[i] += (seq(s,i) == 0) * weights[s]` then `gapi[i] *= Zinv`. -/
def gapiQ (ali : AlignmentQ) (i : ℕ) : ℚ :=
  (∑ s in Finset.range ali.nSeqs, if ali.seq s i = 0 then ali.weights s else 0) * (1 / ali.nEff)

/-- Doubly-ungapped frequency of the pair `(i,j)` (pvi.c 645-654):
`ungapij(i,j) += (seq(s,i) > 0) * (seq(s,j) > 0) * weights[s]` then `*= Zinv`. -/
def ungapijQ (ali : AlignmentQ) (i j : ℕ) : ℚ :=
  (∑ s in Finset.range ali.nSeqs,
      if 0 < ali.seq s i ∧ 0 < ali.seq s j then ali.weights s else 0) * (1 / ali.nEff)

/-- Gap-reduced raw first-order counts (pvi.c 675-678): after
`nCodes = strlen(alphabet) - 1`, `if (seq(s,i) > 0) fi(i, seq(s,i)-1) += weights[s]`,
so reduced cell `a` collects the weight of sequences with code `a + 1`. -/
def fiGRraw (ali : AlignmentQ) (i a : ℕ) : ℚ :=
  ∑ s in Finset.range ali.nSeqs, if ali.seq s i = a + 1 then ali.weights s else 0

/-- Conditional total of site `i` under the gap-reduced convention
(pvi.c 693-696): `fsum = Σ_{ai < nCodes} fi(i, ai)` with the reduced `nCodes`. -/
def fsumGR (ali : AlignmentQ) (i : ℕ) : ℚ :=
  ∑ a in Finset.range (ali.nCodes - 1), fiGRraw ali i a

/-- Gap-reduced normalized first-order marginals (pvi.c 697-699):
`fi(i, ai) *= fsumInv` where `fsumInv = 1.0 / fsum` — the division is
performed unconditionally, even when `fsum = 0`. -/
def fiGR (ali : AlignmentQ) (i a : ℕ) : ℚ :=
  fiGRraw ali i a * (1 / fsumGR ali i)

/-- Gap-reduced raw second-order counts (pvi.c 685-690). -/
def fijGRraw (ali : AlignmentQ) (i j a b : ℕ) : ℚ :=
  ∑ s in Finset.range ali.nSeqs,
    if ali.seq s i = a + 1 ∧ ali.seq s j = b + 1 then ali.weights s else 0

/-- Conditional total of the pair `(i,j)` (pvi.c 703-706). -/
def fsumGRij (ali : AlignmentQ) (i j : ℕ) : ℚ :=
  ∑ a in Finset.range (ali.nCodes - 1), ∑ b in Finset.range (ali.nCodes - 1),
    fijGRraw ali i j a b

/-- Gap-reduced normalized second-order marginals (pvi.c 707-710); again the
division by the conditional total is unguarded. -/
def fijGR (ali : AlignmentQ) (i j a b : ℕ) : ℚ :=
  fijGRraw ali i j a b * (1 / fsumGRij ali i j)

/-! ## MSARead: symbol encoding and row/column reduction (pvi.c 266-564) -/

/-- The built-in protein alphabet `codesAA = "-ACDEFGHIKLMNPQRSTVWY"`. -/
def codesAA : List Char :=
  ['-', 'A', 'C', 'D', 'E', 'F', 'G', 'H', 'I', 'K', 'L',
   'M', 'N', 'P', 'Q', 'R', 'S', 'T', 'V', 'W', 'Y']

/-- MSAReadCode (pvi.c 546-564): encode a character as an integer in
`[-nCodes, nCodes]`.  The scan `while (i < nCodes-1 && toupper(c) != alphabet[i]) i++`
is the first matching index below `nCodes - 1`, else `nCodes - 1`; a
case-insensitive-only match is down-shifted by `nCodes`; a remaining
mismatch at a positive index becomes the sentinel `nCodes`.  The flag
`isProtein` models the pointer test `alphabet == codesAA` guarding the
`'.' -> '-'` special case. -/
def MSAReadCode (alphabet : List Char) (isProtein : Bool) (c0 : Char) : ℤ :=
  let nCodes := alphabet.length
  let c := if isProtein && c0 = '.' then '-' else c0
  let i0 : ℕ := (alphabet.take (nCodes - 1)).findIdx (fun x => c.toUpper == x)
  let a0 : Char := alphabet.getD i0 '-'
  let i1 : ℤ := if c ≠ a0 ∧ c.toUpper = a0 then (i0 : ℤ) - (nCodes : ℤ) else (i0 : ℤ)
  if 0 < i1 ∧ c.toUpper ≠ alphabet.getD i1.toNat '-' then (nCodes : ℤ) else i1

/-- Raw alignment as seen after the encoding pass of MSARead: the alphabet,
the `alphabet == codesAA` flag, the gap-reduce estimator flag, the raw
character rows, and the (already located) focus row index, if any. -/
structure RawAli where
  alphabet : List Char
  isProtein : Bool
  gapReduce : Bool
  rows : List (List Char)
  target : Option ℕ

/-- Row validity (pvi.c 384-393): every cell code must lie in
`[-nCodes, nCodes - 1]`, i.e. not be the out-of-alphabet sentinel. -/
def rowValid (nCodes : ℕ) (r : List ℤ) : Bool :=
  r.all (fun c => decide (-(nCodes : ℤ) ≤ c) && decide (c < (nCodes : ℤ)))

/-- Column validity under focus mode (pvi.c 400-410): for the protein
alphabet a column is dropped when the focus cell is soft (negative), and
for the protein alphabet or gap-reduced mode when the focus cell is gap. -/
def siteValidAt (isProtein gapReduce : Bool) (targetRow : List ℤ) (i : ℕ) : Bool :=
  !(isProtein && decide (targetRow.getD i 0 < 0)) &&
  !((isProtein || gapReduce) && decide (targetRow.getD i 0 = 0))

/-- Keep the cells of the retained columns, in order (pvi.c 469-479). -/
def selectSites (valid : ℕ → Bool) (r : List ℤ) : List ℤ :=
  ((List.range r.length).filter valid).map (fun i => r.getD i 0)

/-- Encoding pass of MSARead (pvi.c 330-341): every raw character becomes
its symbol code. -/
def encodeRows (ra : RawAli) : List (List ℤ) :=
  ra.rows.map (fun row => row.map (MSAReadCode ra.alphabet ra.isProtein))

/-- Row filtering (pvi.c 384-393, 463-479): rows with any out-of-alphabet
cell are always dropped. -/
def validRowsOf (ra : RawAli) : List (List ℤ) :=
  (encodeRows ra).filter (rowValid ra.alphabet.length)

/-- Focus-mode column filtering (pvi.c 396-419, 463-479): under focus mode
invalid columns (judged on the focus row of the unfiltered matrix) are
dropped for every retained row. -/
def reducedOf (ra : RawAli) : List (List ℤ) :=
  match ra.target with
  | none => validRowsOf ra
  | some t =>
      (validRowsOf ra).map
        (selectSites (siteValidAt ra.isProtein ra.gapReduce ((encodeRows ra).getD t [])))

/-- The encoding, row-filtering, focus-column-filtering and soft-code
shifting stages of MSARead: after the reduction, only when the alphabet is
the built-in protein alphabet (`alphabet == codesAA`), negative (soft)
codes are shifted back by `+nCodes` (pvi.c 495-499). -/
def MSAReadReduce (ra : RawAli) : List (List ℤ) :=
  if ra.isProtein then
    (reducedOf ra).map
      (fun r => r.map (fun c => if c < 0 then c + (ra.alphabet.length : ℤ) else c))
  else reducedOf ra

/-! ## MSAEstimateSampleSize (pvi.c 752-933)

The estimator consumes the pseudo-random generator (`InitRNG`, `RandomInt`,
`RandomUniform`) and `SampleCategoricalDistribution`, which are declared in
pvi.c's headers but defined outside this file.  Modelled from the spec:
the generator is deterministic given the fixed seed, so the estimator is
embedded as a function of oracle streams holding the values those calls
return; `SampleCategoricalDistribution` is a "noise-added small-sample
posterior-style resampling" of a distribution from integer counts, modelled
as an arbitrary per-call function from the counts to the sampled
distribution. -/

/-- Constants of the Robbins-Monro loop (pvi.c 776-778). -/
def iterationsC : ℕ := 1000

def batchSizeC : ℕ := 100

noncomputable def learningRateC : ℝ := 10

/-- Result of the rejection loop `while (j == i) j = RandomInt(nSites)`
(pvi.c 791-792) on the draw stream `s` starting at position `k`: the first
stream value different from `i`, with explicit fuel standing in for the
loop's termination. -/
def firstDiff (i : ℕ) (s : ℕ → ℕ) : ℕ → ℕ → ℕ
  | _, 0 => i
  | k, fuel + 1 => if s k = i then firstDiff i s (k + 1) fuel else s k

/-- Per-trial oracle values: the `RandomInt` draw for `i`, the draw stream
for `j`, the `RandomUniform` draw of the stochastic rounding, the two
`SampleCategoricalDistribution` outcomes, and the per-draw uniform pair. -/
structure TrialOracle where
  iDraw : ℕ
  jDraws : ℕ → ℕ
  jFuel : ℕ
  roundU : ℝ
  distI : (ℕ → ℝ) → ℕ → ℝ
  distJ : (ℕ → ℝ) → ℕ → ℝ
  drawU : ℕ → ℝ × ℝ

/-- Stochastic rounding of the local sample size (pvi.c 798-799):
`Nint = (int)(floor(NeffLocal) + (RandomUniform() < NeffLocal - floor(NeffLocal)))`. -/
noncomputable def trialN (NeffLocal : ℝ) (u : ℝ) : ℕ :=
  (⌊NeffLocal⌋ + if u < NeffLocal - ⌊NeffLocal⌋ then 1 else 0).toNat

/-- Cumulative distribution `iCDF[a] = iP[0] + ... + iP[a]` (pvi.c 833-836). -/
noncomputable def cdfOf (p : ℕ → ℝ) (a : ℕ) : ℝ :=
  ∑ b in Finset.range (a + 1), p b

/-- CDF inversion scan `while (U > cdf[a]) a++` (pvi.c 847-848) started at
`a` with `fuel` remaining in-bounds reads: the result `nCodes` (when started
at 0 with fuel `nCodes`) marks a scan that ran past index `nCodes - 1`. -/
noncomputable def scanFrom (c : ℕ → ℝ) (U : ℝ) : ℕ → ℕ → ℕ
  | a, 0 => a
  | a, fuel + 1 => if U ≤ c a then a else scanFrom c U (a + 1) fuel

/-- The empirical joint table `F` built from `n` draws, each accumulating
`invN = 1/n` at the cell given by CDF inversion of the two uniforms
(pvi.c 839-850). -/
noncomputable def trialF (nCodes n : ℕ) (iP jP : ℕ → ℝ) (draws : ℕ → ℝ × ℝ)
    (a b : ℕ) : ℝ :=
  ∑ sx in Finset.range n,
    if scanFrom (cdfOf iP) (draws sx).1 0 nCodes = a ∧
       scanFrom (cdfOf jP) (draws sx).2 0 nCodes = b
    then 1 / (n : ℝ) else 0

/-- Row marginal `iN[ai]` of the sample table (pvi.c 857-861). -/
noncomputable def tableRowN (nCodes : ℕ) (F : ℕ → ℕ → ℝ) (a : ℕ) : ℝ :=
  ∑ b in Finset.range nCodes, F a b

/-- Column marginal `jN[aj]` of the sample table (pvi.c 862-866). -/
noncomputable def tableColN (nCodes : ℕ) (F : ℕ → ℕ → ℝ) (b : ℕ) : ℝ :=
  ∑ a in Finset.range nCodes, F a b

/-- Plug-in mutual information of the sample table (pvi.c 867-874);
zero-probability cells are skipped. -/
noncomputable def tableMI (nCodes : ℕ) (F : ℕ → ℕ → ℝ) : ℝ :=
  ∑ a in Finset.range nCodes, ∑ b in Finset.range nCodes,
    if 0 < F a b then
      F a b * (Real.log (F a b) - Real.log (tableRowN nCodes F a)
               - Real.log (tableColN nCodes F b))
    else 0

/-- Population pair MI from the fixed `fij`/`fi` tables (pvi.c 761-769). -/
noncomputable def pairMIR (nCodes : ℕ) (fiR : ℕ → ℕ → ℝ)
    (fijR : ℕ → ℕ → ℕ → ℕ → ℝ) (i j : ℕ) : ℝ :=
  ∑ ai in Finset.range nCodes, ∑ aj in Finset.range nCodes,
    if 0 < fijR i j ai aj then
      fijR i j ai aj * (Real.log (fijR i j ai aj) - Real.log (fiR i ai)
                        - Real.log (fiR j aj))
    else 0

/-- Average MI of the data distribution over all site pairs (pvi.c 757-771). -/
noncomputable def avgMIR (nSites nCodes : ℕ) (fiR : ℕ → ℕ → ℝ)
    (fijR : ℕ → ℕ → ℕ → ℕ → ℝ) : ℝ :=
  (∑ i in Finset.range nSites, ∑ j in Finset.Ioo i nSites, pairMIR nCodes fiR fijR i j)
    * (1 / ((nSites * (nSites - 1) / 2 : ℕ) : ℝ))

/-- Fixed population statistics and oracle streams consumed by the
estimator: dimensions, `fi`/`fij`, `ungapij`, the gap-reduce flag, and one
`TrialOracle` per (iteration, batch member). -/
structure EstParams where
  nSites : ℕ
  nCodes : ℕ
  fiR : ℕ → ℕ → ℝ
  fijR : ℕ → ℕ → ℕ → ℕ → ℝ
  ungapR : ℕ → ℕ → ℝ
  useGap : Bool
  oracles : ℕ → ℕ → TrialOracle

/-- One trial of the inner batch loop (pvi.c 788-877): pick `i`, resample
`j ≠ i`, adjust the local sample size by `ungapij(i,j)` in gap-reduced mode,
round it stochastically, derive per-symbol counts `round(Nint * fi)`, let
the sampler produce the two single-site distributions, and return the
plug-in MI of the `Nint`-draw empirical joint table. -/
noncomputable def trialMI (P : EstParams) (o : TrialOracle) (Neff : ℝ) : ℝ :=
  let i := o.iDraw
  let j := firstDiff i o.jDraws 0 o.jFuel
  let NeffLocal := if P.useGap then Neff * P.ungapR i j else Neff
  let n := trialN NeffLocal o.roundU
  let iC : ℕ → ℝ := fun a => ((round ((n : ℝ) * P.fiR i a) : ℤ) : ℝ)
  let jC : ℕ → ℝ := fun a => ((round ((n : ℝ) * P.fiR j a) : ℤ) : ℝ)
  tableMI P.nCodes (trialF P.nCodes n (o.distI iC) (o.distJ jC) o.drawU)

/-- Batch average `sampleMI = Σ MIij / batchSize` at iteration `t` (pvi.c 784-877). -/
noncomputable def sampleMIAt (P : EstParams) (t : ℕ) (Neff : ℝ) : ℝ :=
  ∑ b in Finset.range batchSizeC, trialMI P (P.oracles t b) Neff / (batchSizeC : ℝ)

/-- The Robbins-Monro recursion on `uncN = log(N)` (pvi.c 775, 783-923):
`uncN += (sampleMI - avgMI) * (learningRate / (t + 1))`. -/
noncomputable def uncNIter (P : EstParams) (nEff0 : ℝ) : ℕ → ℝ
  | 0 => Real.log nEff0
  | t + 1 =>
      uncNIter P nEff0 t +
        (sampleMIAt P t (Real.exp (uncNIter P nEff0 t))
            - avgMIR P.nSites P.nCodes P.fiR P.fijR)
          * (learningRateC / ((t : ℝ) + 1))

/-- Weights/nEff state mutated by the estimator. -/
structure EstStateR where
  nSeqs : ℕ
  weights : ℕ → ℝ
  nEff : ℝ

/-- MSAEstimateSampleSize final update (pvi.c 926-929): after all
iterations, `ratio = exp(uncN)/nEff`, every weight is multiplied by it and
`nEff = exp(uncN)`. -/
noncomputable def MSAEstimateSampleSize (P : EstParams) (st : EstStateR) : EstStateR :=
  let u := uncNIter P st.nEff iterationsC
  { nSeqs := st.nSeqs
    weights := fun s => st.weights s * (Real.exp u / st.nEff)
    nEff := Real.exp u }

/-! ## Concrete instances used by witnesses and counterexamples -/

/-- Two identical one-site sequences (gap-free), uniform unit weights. -/
def exA : AlignmentQ :=
  { nSeqs := 2, nSites := 1, nCodes := 2, seq := fun _ _ => 1
    weights := fun _ => 1, nEff := 2 }

/-- One sequence over alphabet size 3 whose site 0 is the gap symbol and
site 1 is code 1: a valid alignment whose site 0 has zero ungapped weight. -/
def exGap : AlignmentQ :=
  { nSeqs := 1, nSites := 2, nCodes := 3
    seq := fun _ i => if i = 0 then 0 else 1
    weights := fun _ => 1, nEff := 1 }

/-- Two distinct gap-free sequences over a 2-letter alphabet: rows `(0,0)`
and `(0,1)`; site 0 is constant, site 1 is uniform, so all pairwise MI of
the data is zero. -/
def exB : AlignmentQ :=
  { nSeqs := 2, nSites := 2, nCodes := 2
    seq := fun s i => if s = 0 then 0 else (if i = 0 then 0 else 1)
    weights := fun _ => 1, nEff := 2 }

/-- A custom (non-protein) alphabet `-AB` with one row holding a lowercase
`a`: the soft code `-2` survives loading because the `+= nCodes` shift is
guarded by `alphabet == codesAA`. -/
def exCustom : RawAli :=
  { alphabet := ['-', 'A', 'B'], isProtein := false, gapReduce := false
    rows := [['a', 'A']], target := none }

/-- The protein alphabet with one row holding a lowercase `a`: here the
soft code is shifted back to non-negative. -/
def exProt : RawAli :=
  { alphabet := codesAA, isProtein := true, gapReduce := false
    rows := [['a', 'C']], target := none }

/-- The gap-reduced marginals of the degenerate alignment `exGap`, as the
estimator would consume them: site 0 is all-gap, so its normalized row is
degenerate (zero in the exact model, NaN in IEEE). -/
noncomputable def exFi9 : ℕ → ℕ → ℝ := fun i a => ((fiGR exGap i a : ℚ) : ℝ)

/-- Oracle for one estimator trial whose `RandomInt` draw selects site 0
and whose sampler, fed the all-zero counts of the degenerate site, returns
the all-zero distribution. -/
noncomputable def exOracle9 : TrialOracle :=
  { iDraw := 0, jDraws := fun _ => 1, jFuel := 1, roundU := 1 / 2
    distI := fun _ _ => 0, distJ := fun _ _ => 0, drawU := fun _ => (1 / 2, 1 / 2) }

/-- A trivial estimator parameter/state pair for the witness. -/
noncomputable def exPTriv : EstParams :=
  { nSites := 2, nCodes := 2, fiR := fun _ _ => 0, fijR := fun _ _ _ _ => 0
    ungapR := fun _ _ => 0, useGap := false, oracles := fun _ _ => exOracle9 }

/-- A trivial estimator input state for the witness. -/
noncomputable def exStTriv : EstStateR := { nSeqs := 1, weights := fun _ => 1, nEff := 1 }

/-! ### A concrete estimator run that drives `nEff` above `nSeqs`

The data state is the 2-sequence alignment `exB` after reweighting with
`theta = 0`, `scale = 1` (no neighbors, unit weights, `nEff = nSeqs = 2`);
its sites are independent, so the population average MI is zero.  The
oracle streams below are one possible outcome of the external sampler and
generator: every trial samples the two single-site distributions as
`(1/2, 1/2)` and the joint draws alternate between the cells `(0,0)` and
`(1,1)`, so every batch has strictly positive sample MI and the
Robbins-Monro recursion on `log N` only ever increases. -/

noncomputable def exIP : ℕ → ℝ :=
  fun a => if a = 0 then 1 / 2 else if a = 1 then 1 / 2 else 0

noncomputable def exDraws : ℕ → ℝ × ℝ :=
  fun sx => if sx % 2 = 0 then (1 / 4, 1 / 4) else (3 / 4, 3 / 4)

noncomputable def exOracle3 : TrialOracle :=
  { iDraw := 0, jDraws := fun _ => 1, jFuel := 1, roundU := 1 / 2
    distI := fun _ => exIP, distJ := fun _ => exIP, drawU := exDraws }

noncomputable def exFi3 : ℕ → ℕ → ℝ :=
  fun i a => if i = 0 then (if a = 0 then 1 else 0)
             else (if a = 0 then 1 / 2 else if a = 1 then 1 / 2 else 0)

noncomputable def exFij3 : ℕ → ℕ → ℕ → ℕ → ℝ :=
  fun i j a b => if i = 0 ∧ j = 1 ∧ a = 0 ∧ b ≤ 1 then 1 / 2 else 0

noncomputable def exP3 : EstParams :=
  { nSites := 2, nCodes := 2, fiR := exFi3, fijR := exFij3
    ungapR := fun _ _ => 1, useGap := false, oracles := fun _ _ => exOracle3 }

noncomputable def exSt3 : EstStateR := { nSeqs := 2, weights := fun _ => 1, nEff := 2 }

/-! ### Counting lemmas for the two pair-loop shapes -/

lemma countP_bind {α β : Type} (p : β → Bool) (l : List α) (f : α → List β) :
    (l.flatMap f).countP p = (l.map fun a => (f a).countP p).sum := by
  induction l with
  | nil => simp
  | cons a l ih => simp [List.countP_append, ih, List.flatMap_cons]

lemma countP_eq_sum_map {α : Type} (p : α → Bool) (l : List α) :
    l.countP p = (l.map fun a => if p a then 1 else 0).sum := by
  induction l with
  | nil => simp
  | cons a l ih => by_cases h : p a <;> simp [List.countP_cons, ih, h, Nat.add_comm]

lemma sum_map_add {α : Type} (l : List α) (f g : α → ℕ) :
    (l.map fun a => f a + g a).sum = (l.map f).sum + (l.map g).sum := by
  induction l with
  | nil => simp
  | cons a l ih => simp [ih]; ring

lemma innerPairs_succ_lt {n s : ℕ} (h : s < n) :
    innerPairs (n + 1) s = innerPairs n s ++ [(s, n)] := by
  unfold innerPairs
  rw [List.range_succ, List.drop_append_of_le_length (by simpa using h), List.map_append]
  rfl

lemma innerPairs_succ_self (n : ℕ) : innerPairs (n + 1) n = [] := by
  unfold innerPairs
  rw [List.drop_eq_nil_of_le (by simp)]
  rfl

lemma mem_pairList {n : ℕ} {p : ℕ × ℕ} (h : p ∈ pairList n) : p.1 < n ∧ p.2 < n := by
  rcases List.mem_flatMap.1 h with ⟨s, hs, hp⟩
  rcases List.mem_map.1 hp with ⟨t, ht, rfl⟩
  exact ⟨List.mem_range.1 hs, List.mem_range.1 (List.mem_of_mem_drop ht)⟩

lemma countP_pairList_succ (p : ℕ × ℕ → Bool) (n : ℕ) :
    (pairList (n + 1)).countP p
      = (pairList n).countP p + (List.range n).countP (fun s => p (s, n)) := by
  unfold pairList
  rw [countP_bind, countP_bind, List.range_succ, List.map_append, List.sum_append]
  have hmap : (List.range n).map (fun a => (innerPairs (n + 1) a).countP p)
      = (List.range n).map (fun a => (innerPairs n a).countP p + if p (a, n) then 1 else 0) := by
    apply List.map_congr_left
    intro a ha
    rw [innerPairs_succ_lt (List.mem_range.1 ha), List.countP_append]
    simp [List.countP_cons]
  rw [hmap, sum_map_add, countP_eq_sum_map]
  simp [innerPairs_succ_self]

lemma countP_singleton_range (q : ℕ → Bool) :
    ∀ n u, u < n →
      (List.range n).countP (fun s => q s && decide (u = s)) = if q u then 1 else 0 := by
  intro n
  induction n with
  | zero => intro u hu; omega
  | succ n ih =>
    intro u hu
    rw [List.range_succ, List.countP_append]
    rcases Nat.lt_succ_iff_lt_or_eq.1 hu with h | rfl
    · have : (List.countP (fun s => q s && decide (u = s)) [n]) = 0 := by
        simp [List.countP_cons]
        omega
      rw [ih u h, this]
      simp
    · have h0 : (List.range u).countP (fun s => q s && decide (u = s)) = 0 := by
        rw [List.countP_eq_zero]
        intro a ha
        have : a < u := List.mem_range.1 ha
        simp
        omega
      simp [h0, List.countP_cons]

lemma countP_pairList (cond : ℕ → ℕ → Bool) (hs : ∀ s t, cond s t = cond t s) :
    ∀ n u, u < n →
      (pairList n).countP (fun p => cond p.1 p.2 && (decide (u = p.1) || decide (u = p.2)))
        = (List.range n).countP (fun t => decide (u ≠ t) && cond u t) := by
  intro n
  induction n with
  | zero => intro u hu; omega
  | succ n ih =>
    intro u hu
    rw [countP_pairList_succ, List.range_succ, List.countP_append]
    rcases Nat.lt_succ_iff_lt_or_eq.1 hu with h | rfl
    · rw [ih u h]
      have h1 : (List.range n).countP
            (fun s => (fun p : ℕ × ℕ => cond p.1 p.2 && (decide (u = p.1) || decide (u = p.2))) (s, n))
          = (List.range n).countP (fun s => cond s n && decide (u = s)) := by
        apply List.countP_congr
        intro a ha
        have han : a < n := List.mem_range.1 ha
        have hun : u ≠ n := Nat.ne_of_lt h
        simp only []
        by_cases hua : u = a <;> simp [hua, hun]
      rw [h1, countP_singleton_range (fun s => cond s n) n u h]
      have h2 : (List.countP (fun t => decide (u ≠ t) && cond u t) [n])
          = if cond u n then 1 else 0 := by
        have hun : u ≠ n := Nat.ne_of_lt h
        simp [List.countP_cons, hun]
      rw [h2]
    · have h0 : (pairList u).countP
          (fun p => cond p.1 p.2 && (decide (u = p.1) || decide (u = p.2))) = 0 := by
        rw [List.countP_eq_zero]
        intro p hp
        have hb := mem_pairList hp
        have h1 : u ≠ p.1 := Nat.ne_of_gt hb.1
        have h2 : u ≠ p.2 := Nat.ne_of_gt hb.2
        simp [h1, h2]
      rw [h0]
      have h1 : (List.range u).countP
            (fun s => (fun p : ℕ × ℕ => cond p.1 p.2 && (decide (u = p.1) || decide (u = p.2))) (s, u))
          = (List.range u).countP (fun t => decide (u ≠ t) && cond u t) := by
        apply List.countP_congr
        intro a ha
        have hau : a < u := List.mem_range.1 ha
        have h2 : u ≠ a := Nat.ne_of_gt hau
        simp only []
        simp [h2, hs a u]
      rw [h1]
      have h3 : (List.countP (fun t => decide (u ≠ t) && cond u t) [u]) = 0 := by
        simp [List.countP_cons]
      rw [h3]
      simp

lemma seqFold_apply (ali : AlignmentQ) (theta : ℚ) :
    ∀ (L : List (ℕ × ℕ)) (w : ℕ → ℚ) (u : ℕ),
      (L.foldl (seqStep ali theta) w) u
        = w u + (L.countP
            (fun p => nbrCond ali theta p.1 p.2 && (decide (u = p.1) || decide (u = p.2))) : ℚ) := by
  intro L
  induction L with
  | nil => intro w u; simp
  | cons p L ih =>
    intro w u
    rw [List.foldl_cons, ih, List.countP_cons]
    unfold seqStep
    by_cases hc : nbrCond ali theta p.1 p.2
    · rw [if_pos hc]
      by_cases h1 : u = p.1
      · simp [h1, hc]
        ring
      · by_cases h2 : u = p.2
        · simp [h1, h2, hc]
          ring
        · simp [h1, h2, hc]
    · rw [if_neg hc]
      simp [hc]

lemma parFold_apply (ali : AlignmentQ) (theta : ℚ) (s : ℕ) :
    ∀ (L : List ℕ) (c : ℚ),
      (L.foldl (fun ws t => if s ≠ t then (if nbrCond ali theta s t then ws + 1 else ws) else ws) c)
        = c + (L.countP (fun t => decide (s ≠ t) && nbrCond ali theta s t) : ℚ) := by
  intro L
  induction L with
  | nil => intro c; simp
  | cons t L ih =>
    intro c
    rw [List.foldl_cons, ih, List.countP_cons]
    by_cases h1 : s ≠ t
    · by_cases h2 : nbrCond ali theta s t
      · simp [h1, h2]
        ring
      · simp [h1, h2]
    · simp [h1]

lemma nbrCond_symm (ali : AlignmentQ) (theta : ℚ) (s t : ℕ) :
    nbrCond ali theta s t = nbrCond ali theta t s := by
  unfold nbrCond seqId
  have h : Finset.filter (fun n => ali.seq s n = ali.seq t n) (Finset.range ali.nSites)
      = Finset.filter (fun n => ali.seq t n = ali.seq s n) (Finset.range ali.nSites) := by
    apply Finset.filter_congr
    intro n _
    simp [eq_comm]
  rw [h]

/-- The sequential pair loop assigns each in-range sequence the weight
`1 + neighborCount`. -/
lemma seqNeighborWeights_eq (ali : AlignmentQ) (theta : ℚ) (u : ℕ) (hu : u < ali.nSeqs) :
    seqNeighborWeights ali theta u = 1 + (neighborCount ali theta u : ℚ) := by
  unfold seqNeighborWeights neighborCount
  rw [seqFold_apply]
  have hsymm : ∀ s t, nbrCond ali theta s t = nbrCond ali theta t s := nbrCond_symm ali theta
  rw [countP_pairList (nbrCond ali theta) hsymm ali.nSeqs u hu]
  have h1 : (List.range ali.nSeqs).countP (fun t => decide (u ≠ t) && nbrCond ali theta u t)
      = ((List.range ali.nSeqs).filter (fun t => decide (u ≠ t) && nbrCond ali theta u t)).length :=
    List.countP_eq_length_filter _ _
  rw [h1]

/-- The parallel ordered-pair loop assigns every sequence the weight
`1 + neighborCount`. -/
lemma parNeighborWeight_eq (ali : AlignmentQ) (theta : ℚ) (u : ℕ) :
    parNeighborWeight ali theta u = 1 + (neighborCount ali theta u : ℚ) := by
  unfold parNeighborWeight neighborCount
  rw [parFold_apply, List.countP_eq_length_filter]

/-! ### Membership lemmas for the loader stages -/

lemma rowValid_mem {nCodes : ℕ} {r : List ℤ} (h : rowValid nCodes r = true) :
    ∀ c ∈ r, -(nCodes : ℤ) ≤ c ∧ c < (nCodes : ℤ) := by
  intro c hc
  unfold rowValid at h
  rw [List.all_eq_true] at h
  have hcc := h c hc
  simpa using hcc

lemma mem_selectSites {v : ℕ → Bool} {r : List ℤ} {c : ℤ} (h : c ∈ selectSites v r) :
    c ∈ r := by
  unfold selectSites at h
  rcases List.mem_map.1 h with ⟨i, hi, rfl⟩
  have hir : i < r.length := List.mem_range.1 (List.mem_of_mem_filter hi)
  rw [List.getD_eq_getElem r 0 hir]
  exact List.getElem_mem hir

/-! ### Evaluation lemmas for the concrete estimator run -/

lemma exCdf0 : cdfOf exIP 0 = 1 / 2 := by
  simp [cdfOf, exIP]

lemma exCdf1 : cdfOf exIP 1 = 1 := by
  rw [cdfOf, Finset.sum_range_succ, Finset.sum_range_one]
  norm_num [exIP]

lemma exScanLow : scanFrom (cdfOf exIP) (1 / 4) 0 2 = 0 := by
  rw [scanFrom, if_pos (by rw [exCdf0]; norm_num)]

lemma exScanHigh : scanFrom (cdfOf exIP) (3 / 4) 0 2 = 1 := by
  rw [scanFrom, if_neg (by rw [exCdf0]; norm_num),
      scanFrom, if_pos (by rw [exCdf1]; norm_num)]

lemma exScanDrawFst (sx : ℕ) :
    scanFrom (cdfOf exIP) (exDraws sx).1 0 2 = if sx % 2 = 0 then 0 else 1 := by
  by_cases h : sx % 2 = 0
  · have h1 : (exDraws sx).1 = 1 / 4 := by
      unfold exDraws
      rw [if_pos h]
    rw [if_pos h, h1, exScanLow]
  · have h1 : (exDraws sx).1 = 3 / 4 := by
      unfold exDraws
      rw [if_neg h]
    rw [if_neg h, h1, exScanHigh]

lemma exScanDrawSnd (sx : ℕ) :
    scanFrom (cdfOf exIP) (exDraws sx).2 0 2 = if sx % 2 = 0 then 0 else 1 := by
  by_cases h : sx % 2 = 0
  · have h1 : (exDraws sx).2 = 1 / 4 := by
      unfold exDraws
      rw [if_pos h]
    rw [if_pos h, h1, exScanLow]
  · have h1 : (exDraws sx).2 = 3 / 4 := by
      unfold exDraws
      rw [if_neg h]
    rw [if_neg h, h1, exScanHigh]

lemma exF_offdiag (n a b : ℕ) (hab : a ≠ b) :
    trialF 2 n exIP exIP exDraws a b = 0 := by
  unfold trialF
  apply Finset.sum_eq_zero
  intro sx _
  rw [if_neg]
  rw [exScanDrawFst, exScanDrawSnd]
  rintro ⟨h1, h2⟩
  exact hab (h1 ▸ h2 ▸ rfl)

lemma exF_nonneg (n a b : ℕ) : 0 ≤ trialF 2 n exIP exIP exDraws a b := by
  unfold trialF
  apply Finset.sum_nonneg
  intro sx _
  split_ifs
  · positivity
  · exact le_refl 0

lemma exF_le_one (n a b : ℕ) : trialF 2 n exIP exIP exDraws a b ≤ 1 := by
  unfold trialF
  calc (∑ sx in Finset.range n,
          if scanFrom (cdfOf exIP) (exDraws sx).1 0 2 = a ∧
             scanFrom (cdfOf exIP) (exDraws sx).2 0 2 = b then 1 / (n : ℝ) else 0)
      ≤ ∑ _sx in Finset.range n, 1 / (n : ℝ) := by
        apply Finset.sum_le_sum
        intro sx _
        split_ifs
        · exact le_refl _
        · positivity
    _ = (n : ℝ) * (1 / (n : ℝ)) := by
        rw [Finset.sum_const, Finset.card_range, nsmul_eq_mul]
    _ ≤ 1 := by
        rw [mul_one_div]
        exact div_self_le_one _

lemma exRowN (n a : ℕ) (ha : a < 2) :
    tableRowN 2 (trialF 2 n exIP exIP exDraws) a = trialF 2 n exIP exIP exDraws a a := by
  unfold tableRowN
  rw [Finset.sum_range_succ, Finset.sum_range_one]
  interval_cases a
  · rw [exF_offdiag n 0 1 (by norm_num)]
    ring
  · rw [exF_offdiag n 1 0 (by norm_num)]
    ring

lemma exColN (n b : ℕ) (hb : b < 2) :
    tableColN 2 (trialF 2 n exIP exIP exDraws) b = trialF 2 n exIP exIP exDraws b b := by
  unfold tableColN
  rw [Finset.sum_range_succ, Finset.sum_range_one]
  interval_cases b
  · rw [exF_offdiag n 1 0 (by norm_num)]
    ring
  · rw [exF_offdiag n 0 1 (by norm_num)]
    ring

lemma exMI_nonneg (n : ℕ) : 0 ≤ tableMI 2 (trialF 2 n exIP exIP exDraws) := by
  unfold tableMI
  apply Finset.sum_nonneg
  intro a ha
  apply Finset.sum_nonneg
  intro b hb
  by_cases hab : a = b
  · subst hab
    split_ifs with hF
    · rw [exRowN n a (Finset.mem_range.1 ha), exColN n a (Finset.mem_range.1 ha)]
      have hle1 := exF_le_one n a a
      have hlog : Real.log (trialF 2 n exIP exIP exDraws a a) ≤ 0 :=
        Real.log_nonpos (le_of_lt hF) hle1
      have hterm : Real.log (trialF 2 n exIP exIP exDraws a a)
          - Real.log (trialF 2 n exIP exIP exDraws a a)
          - Real.log (trialF 2 n exIP exIP exDraws a a)
          = -Real.log (trialF 2 n exIP exIP exDraws a a) := by ring
      rw [hterm]
      exact mul_nonneg (le_of_lt hF) (by linarith)
    · exact le_refl 0
  · rw [if_neg]
    rw [exF_offdiag n a b hab]
    norm_num

lemma exTrialMI_eq (Neff : ℝ) :
    trialMI exP3 exOracle3 Neff
      = tableMI 2 (trialF 2 (trialN Neff (1 / 2)) exIP exIP exDraws) := rfl

lemma exSampleMI_eq (t : ℕ) (Neff : ℝ) :
    sampleMIAt exP3 t Neff
      = tableMI 2 (trialF 2 (trialN Neff (1 / 2)) exIP exIP exDraws) := by
  unfold sampleMIAt
  have hconst : ∀ b ∈ Finset.range batchSizeC,
      trialMI exP3 (exP3.oracles t b) Neff / (batchSizeC : ℝ)
        = tableMI 2 (trialF 2 (trialN Neff (1 / 2)) exIP exIP exDraws) / (batchSizeC : ℝ) := by
    intro b _
    rw [show exP3.oracles t b = exOracle3 from rfl, exTrialMI_eq]
  rw [Finset.sum_congr rfl hconst, Finset.sum_const, Finset.card_range, nsmul_eq_mul]
  rw [mul_div_cancel₀]
  norm_num [batchSizeC]

lemma exSampleMI_nonneg (t : ℕ) (Neff : ℝ) : 0 ≤ sampleMIAt exP3 t Neff := by
  rw [exSampleMI_eq]
  exact exMI_nonneg _

lemma exAvgMI : avgMIR exP3.nSites exP3.nCodes exP3.fiR exP3.fijR = 0 := by
  show avgMIR 2 2 exFi3 exFij3 = 0
  unfold avgMIR
  rw [Finset.sum_range_succ, Finset.sum_range_one]
  rw [show Finset.Ioo 0 2 = ({1} : Finset ℕ) from by decide,
      show Finset.Ioo 1 2 = (∅ : Finset ℕ) from by decide]
  rw [Finset.sum_singleton, Finset.sum_empty]
  have hpair : pairMIR 2 exFi3 exFij3 0 1 = 0 := by
    unfold pairMIR
    rw [Finset.sum_range_succ, Finset.sum_range_one,
        Finset.sum_range_succ, Finset.sum_range_one,
        Finset.sum_range_succ, Finset.sum_range_one]
    norm_num [exFij3, exFi3, Real.log_one]
  rw [hpair]
  norm_num

lemma exUncN_step (t : ℕ) : uncNIter exP3 2 t ≤ uncNIter exP3 2 (t + 1) := by
  rw [uncNIter, exAvgMI, sub_zero]
  have hs := exSampleMI_nonneg t (Real.exp (uncNIter exP3 2 t))
  have hlr : 0 ≤ learningRateC / ((t : ℝ) + 1) := by
    unfold learningRateC
    positivity
  exact le_add_of_nonneg_right (mul_nonneg hs hlr)

lemma exUncN_mono : ∀ t1 t2 : ℕ, t1 ≤ t2 → uncNIter exP3 2 t1 ≤ uncNIter exP3 2 t2 := by
  intro t1 t2 h
  induction t2 with
  | zero =>
    rw [Nat.le_zero.1 h]
  | succ n ih =>
    by_cases h2 : t1 ≤ n
    · exact le_trans (ih h2) (exUncN_step n)
    · rw [show t1 = n + 1 from by omega]

lemma exTrialN2 : trialN 2 (1 / 2 : ℝ) = 2 := by
  unfold trialN
  have hf : ⌊(2 : ℝ)⌋ = 2 := by
    rw [show (2 : ℝ) = ((2 : ℤ) : ℝ) from by norm_num]
    exact Int.floor_intCast 2
  rw [hf]
  norm_num
  rfl

lemma exF2_00 : trialF 2 2 exIP exIP exDraws 0 0 = 1 / 2 := by
  unfold trialF
  rw [Finset.sum_range_succ, Finset.sum_range_one]
  rw [exScanDrawFst 0, exScanDrawSnd 0, exScanDrawFst 1, exScanDrawSnd 1]
  norm_num

lemma exF2_11 : trialF 2 2 exIP exIP exDraws 1 1 = 1 / 2 := by
  unfold trialF
  rw [Finset.sum_range_succ, Finset.sum_range_one]
  rw [exScanDrawFst 0, exScanDrawSnd 0, exScanDrawFst 1, exScanDrawSnd 1]
  norm_num

lemma exMI2 : tableMI 2 (trialF 2 2 exIP exIP exDraws) = Real.log 2 := by
  unfold tableMI
  rw [Finset.sum_range_succ, Finset.sum_range_one,
      Finset.sum_range_succ, Finset.sum_range_one,
      Finset.sum_range_succ, Finset.sum_range_one]
  rw [exRowN 2 0 (by norm_num), exRowN 2 1 (by norm_num),
      exColN 2 0 (by norm_num), exColN 2 1 (by norm_num)]
  rw [exF_offdiag 2 0 1 (by norm_num), exF_offdiag 2 1 0 (by norm_num), exF2_00, exF2_11]
  have hhalf : Real.log (1 / 2 : ℝ) = -Real.log 2 := by
    rw [one_div, Real.log_inv]
  norm_num [hhalf]
  ring

lemma exUncN1 : uncNIter exP3 2 1 = Real.log 2 + Real.log 2 * 10 := by
  rw [show (1 : ℕ) = 0 + 1 from rfl, uncNIter, exAvgMI, sub_zero]
  rw [show uncNIter exP3 2 0 = Real.log 2 from rfl]
  rw [Real.exp_log (by norm_num : (0 : ℝ) < 2)]
  rw [exSampleMI_eq, exTrialN2, exMI2]
  unfold learningRateC
  norm_num

lemma exB_nbr01 : nbrCond exB 0 0 1 = false := by
  unfold nbrCond
  rw [decide_eq_false_iff_not, show seqId exB 0 1 = 1 from by decide]
  norm_num [exB]

lemma exB_nbr10 : nbrCond exB 0 1 0 = false := by
  unfold nbrCond
  rw [decide_eq_false_iff_not, show seqId exB 1 0 = 1 from by decide]
  norm_num [exB]

lemma exB_count (s : ℕ) (hs : s < 2) : neighborCount exB 0 s = 0 := by
  unfold neighborCount
  rw [show exB.nSeqs = 2 from rfl, show List.range 2 = [0, 1] from rfl]
  interval_cases s <;>
    simp only [List.filter_cons, List.filter_nil, exB_nbr01, exB_nbr10] <;> simp

lemma exB_weights (s : ℕ) (hs : s < 2) : (MSAReweightSequences exB 0 1).weights s = 1 := by
  unfold MSAReweightSequences
  simp only [if_pos (show (0 : ℚ) ≤ 0 ∧ (0 : ℚ) ≤ 1 from by norm_num)]
  rw [seqNeighborWeights_eq exB 0 s (show s < exB.nSeqs from hs), exB_count s hs]
  norm_num

lemma exB_nEff : (MSAReweightSequences exB 0 1).nEff = 2 := by
  unfold MSAReweightSequences
  simp only [if_pos (show (0 : ℚ) ≤ 0 ∧ (0 : ℚ) ≤ 1 from by norm_num)]
  rw [show exB.nSeqs = 2 from rfl, Finset.sum_range_succ, Finset.sum_range_one]
  rw [seqNeighborWeights_eq exB 0 0 (show (0 : ℕ) < exB.nSeqs from by decide),
      seqNeighborWeights_eq exB 0 1 (show (1 : ℕ) < exB.nSeqs from by decide)]
  rw [exB_count 0 (by norm_num), exB_count 1 (by norm_num)]
  norm_num

/-! ## Claim C1 -/

/-- Claim C1 (amended): after MSARead's row/column filtering no retained
cell ever holds the out-of-alphabet sentinel — for every alphabet the cells
lie in `[-nCodes, nCodes - 1]`; but the `code += nCodes` shift of soft
(negative) codes is applied only when the alphabet is the built-in protein
alphabet (`alphabet == codesAA`), in which case all cells end up in
`[0, nCodes - 1]`. -/
theorem C1_range (ra : RawAli) :
    (∀ r ∈ MSAReadReduce ra, ∀ c ∈ r,
      -(ra.alphabet.length : ℤ) ≤ c ∧ c < (ra.alphabet.length : ℤ)) ∧
    (ra.isProtein = true → ∀ r ∈ MSAReadReduce ra, ∀ c ∈ r,
      0 ≤ c ∧ c < (ra.alphabet.length : ℤ)) := by
  have hvalid : ∀ r ∈ validRowsOf ra,
      ∀ c ∈ r, -(ra.alphabet.length : ℤ) ≤ c ∧ c < (ra.alphabet.length : ℤ) := by
    intro r hr
    exact rowValid_mem (List.of_mem_filter hr)
  have hreduced : ∀ r ∈ reducedOf ra,
      ∀ c ∈ r, -(ra.alphabet.length : ℤ) ≤ c ∧ c < (ra.alphabet.length : ℤ) := by
    unfold reducedOf
    cases ra.target with
    | none => exact hvalid
    | some t =>
      intro r hr c hc
      rcases List.mem_map.1 hr with ⟨r0, hr0, rfl⟩
      exact hvalid r0 hr0 c (mem_selectSites hc)
  cases hp : ra.isProtein with
  | false =>
    constructor
    · intro r hr
      have hr2 : r ∈ reducedOf ra := by
        unfold MSAReadReduce at hr
        rw [hp] at hr
        simpa using hr
      exact hreduced r hr2
    · intro hcontra
      exact absurd hcontra (by simp)
  | true =>
    have hcell : ∀ r ∈ MSAReadReduce ra, ∀ c ∈ r,
        (-(ra.alphabet.length : ℤ) ≤ c ∧ c < (ra.alphabet.length : ℤ)) ∧ 0 ≤ c := by
      intro r hr c hc
      unfold MSAReadReduce at hr
      rw [hp] at hr
      simp only [if_true] at hr
      rcases List.mem_map.1 hr with ⟨r0, hr0, rfl⟩
      rcases List.mem_map.1 hc with ⟨c0, hc0, rfl⟩
      have hb := hreduced r0 hr0 c0 hc0
      by_cases hneg : c0 < 0
      · rw [if_pos hneg]
        constructor
        · constructor <;> omega
        · omega
      · rw [if_neg hneg]
        constructor
        · exact hb
        · omega
    exact ⟨fun r hr c hc => (hcell r hr c hc).1,
           fun _ r hr c hc => ⟨(hcell r hr c hc).2, (hcell r hr c hc).1.2⟩⟩

/-- Witness for C1's protein part: loading the protein row `"aC"` yields
cells `[1, 2]`, and the theorem places them in `[0, nCodes)`. -/
theorem C1_range_w :
    0 ≤ ((MSAReadReduce exProt).getD 0 []).getD 0 (-1) ∧
    ((MSAReadReduce exProt).getD 0 []).getD 0 (-1) < (exProt.alphabet.length : ℤ) :=
  (C1_range exProt).2 rfl ((MSAReadReduce exProt).getD 0 []) (by decide)
    (((MSAReadReduce exProt).getD 0 []).getD 0 (-1)) (by decide)

/-- Counterexample for C1 as stated: with the custom alphabet `-AB`
(not the built-in protein alphabet) the lowercase cell `a` is encoded as
the soft code `-2`, is retained by row/column filtering, and is NOT shifted
back to non-negative — the loaded matrix still holds a negative code when
the statistics phases begin. -/
theorem C1_cx :
    MSAReadReduce exCustom = [[-2, 1]] ∧
    ((MSAReadReduce exCustom).getD 0 []).getD 0 0 < 0 := by
  constructor <;> decide

/-! ## Claim C2 -/

/-- Claim C2 (code evaluated at the failing input): at the all-gap site 0
of `exGap` the conditional total is zero, yet MSACountMarginals still
multiplies the row by `fsumInv = 1.0/fsum`; in the exact model the row
stays identically zero (in IEEE arithmetic it becomes NaN) — neither the
uniform fallback (which would be `1/2` per reduced symbol) nor an error. -/
theorem C2_unguarded :
    fsumGR exGap 0 = 0 ∧ fiGR exGap 0 0 = 0 ∧ fiGR exGap 0 1 = 0 ∧
    ¬ fiGR exGap 0 0 = 1 / 2 := by
  have h1 : fsumGR exGap 0 = 0 := by
    norm_num [fsumGR, fiGRraw, exGap, Finset.sum_range_succ]
  have h2 : fiGR exGap 0 0 = 0 := by
    norm_num [fiGR, fiGRraw, exGap, Finset.sum_range_succ]
  have h3 : fiGR exGap 0 1 = 0 := by
    norm_num [fiGR, fiGRraw, exGap, Finset.sum_range_succ]
  refine ⟨h1, h2, h3, ?_⟩
  rw [h2]
  norm_num

/-! ## Claim C3 -/

/-- Claim C3 (amended): after MSAReweightSequences, `nEff` equals the sum
of the weights unconditionally, and with `0 < scale ≤ 1` also
`0 < nEff ≤ nSeqs`; after MSAEstimateSampleSize (entered with `nEff` equal
to the nonzero weight total), `nEff` again equals the sum of the weights
and `nEff > 0` — but the upper bound `nEff ≤ nSeqs` is not restored (see
the counterexample). -/
theorem C3_sumWeights :
    (∀ (ali : AlignmentQ) (theta scale : ℚ),
        (MSAReweightSequences ali theta scale).nEff
          = ∑ s in Finset.range ali.nSeqs, (MSAReweightSequences ali theta scale).weights s) ∧
    (∀ (ali : AlignmentQ) (theta scale : ℚ), 0 < scale → scale ≤ 1 → 1 ≤ ali.nSeqs →
        0 < (MSAReweightSequences ali theta scale).nEff ∧
        (MSAReweightSequences ali theta scale).nEff ≤ (ali.nSeqs : ℚ)) ∧
    (∀ (P : EstParams) (st : EstStateR),
        st.nEff = (∑ s in Finset.range st.nSeqs, st.weights s) → st.nEff ≠ 0 →
        (MSAEstimateSampleSize P st).nEff
            = (∑ s in Finset.range st.nSeqs, (MSAEstimateSampleSize P st).weights s) ∧
          0 < (MSAEstimateSampleSize P st).nEff) := by
  refine ⟨fun ali theta scale => rfl, ?_, ?_⟩
  · intro ali theta scale hsc hsc1 hn
    unfold MSAReweightSequences
    by_cases hc : 0 ≤ theta ∧ theta ≤ 1
    · simp only [if_pos hc]
      have hpos : ∀ s ∈ Finset.range ali.nSeqs,
          0 < 1 / seqNeighborWeights ali theta s * scale := by
        intro s hs
        rw [seqNeighborWeights_eq ali theta s (Finset.mem_range.1 hs)]
        have h1 : (0 : ℚ) < 1 + (neighborCount ali theta s : ℚ) := by positivity
        positivity
      have hle : ∀ s ∈ Finset.range ali.nSeqs,
          1 / seqNeighborWeights ali theta s * scale ≤ 1 := by
        intro s hs
        rw [seqNeighborWeights_eq ali theta s (Finset.mem_range.1 hs)]
        have h1 : (1 : ℚ) ≤ 1 + (neighborCount ali theta s : ℚ) :=
          le_add_of_nonneg_right (by positivity)
        have h2 : 1 / (1 + (neighborCount ali theta s : ℚ)) ≤ 1 := by
          rw [div_le_one (by positivity)]
          exact h1
        have h3 : (0 : ℚ) ≤ 1 / (1 + (neighborCount ali theta s : ℚ)) := by positivity
        calc 1 / (1 + (neighborCount ali theta s : ℚ)) * scale
            ≤ 1 * 1 := mul_le_mul h2 hsc1 (le_of_lt hsc) (by norm_num)
          _ = 1 := by norm_num
      constructor
      · exact Finset.sum_pos hpos (Finset.nonempty_range_iff.2 (by omega))
      · calc (∑ s in Finset.range ali.nSeqs, 1 / seqNeighborWeights ali theta s * scale)
            ≤ ∑ _s in Finset.range ali.nSeqs, (1 : ℚ) := Finset.sum_le_sum hle
          _ = (ali.nSeqs : ℚ) := by simp
    · simp only [if_neg hc, one_mul]
      constructor
      · apply Finset.sum_pos (fun s _ => hsc) (Finset.nonempty_range_iff.2 (by omega))
      · calc (∑ _s in Finset.range ali.nSeqs, scale)
            ≤ ∑ _s in Finset.range ali.nSeqs, (1 : ℚ) :=
              Finset.sum_le_sum (fun s _ => hsc1)
          _ = (ali.nSeqs : ℚ) := by simp
  · intro P st hsum h0
    unfold MSAEstimateSampleSize
    constructor
    · rw [← Finset.sum_mul, ← hsum, mul_comm, div_mul_cancel₀ _ h0]
    · exact Real.exp_pos _

/-- Witness for C3. -/
theorem C3_sumWeights_w :
    ((MSAReweightSequences exA 0 1).nEff
      = ∑ s in Finset.range exA.nSeqs, (MSAReweightSequences exA 0 1).weights s) ∧
    (0 < (MSAReweightSequences exA 0 1).nEff ∧
      (MSAReweightSequences exA 0 1).nEff ≤ (exA.nSeqs : ℚ)) ∧
    ((MSAEstimateSampleSize exPTriv exStTriv).nEff
        = (∑ s in Finset.range exStTriv.nSeqs,
            (MSAEstimateSampleSize exPTriv exStTriv).weights s) ∧
      0 < (MSAEstimateSampleSize exPTriv exStTriv).nEff) :=
  ⟨C3_sumWeights.1 exA 0 1,
   C3_sumWeights.2.1 exA 0 1 (by norm_num) (by norm_num) (by decide),
   C3_sumWeights.2.2 exPTriv exStTriv (by simp [exStTriv]) (by norm_num [exStTriv])⟩

/-- Counterexample for C3 as stated: the state below is exactly the output
of MSAReweightSequences on `exB` with `theta = 0` and `scale = 1 ≤ 1`
(unit weights, `nEff = nSeqs = 2`), and `exP3.fiR`/`exP3.fijR` are the
standard marginals the pipeline computes for it.  Running
MSAEstimateSampleSize on this state with the oracle streams of `exP3`
leaves `nEff` strictly greater than `nSeqs`, violating the claimed
invariant `nEff ≤ nSeqs` even though `scale ≤ 1`. -/
theorem C3_cx :
    (MSAReweightSequences exB 0 1).weights 0 = 1 ∧
    (MSAReweightSequences exB 0 1).weights 1 = 1 ∧
    (MSAReweightSequences exB 0 1).nEff = 2 ∧
    ((fiStd exB 0 0 : ℚ) : ℝ) = exFi3 0 0 ∧
    ((fiStd exB 0 1 : ℚ) : ℝ) = exFi3 0 1 ∧
    ((fiStd exB 1 0 : ℚ) : ℝ) = exFi3 1 0 ∧
    ((fiStd exB 1 1 : ℚ) : ℝ) = exFi3 1 1 ∧
    ((fijStd exB 0 1 0 0 : ℚ) : ℝ) = exFij3 0 1 0 0 ∧
    ((fijStd exB 0 1 0 1 : ℚ) : ℝ) = exFij3 0 1 0 1 ∧
    exSt3.nSeqs = 2 ∧ exSt3.weights 0 = 1 ∧ exSt3.nEff = 2 ∧
    (exSt3.nSeqs : ℝ) < (MSAEstimateSampleSize exP3 exSt3).nEff := by
  have hfi00 : fiStd exB 0 0 = 1 := by
    unfold fiStd
    rw [show exB.nSeqs = 2 from rfl, Finset.sum_range_succ, Finset.sum_range_one]
    norm_num [exB]
  have hfi01 : fiStd exB 0 1 = 0 := by
    unfold fiStd
    rw [show exB.nSeqs = 2 from rfl, Finset.sum_range_succ, Finset.sum_range_one]
    norm_num [exB]
  have hfi10 : fiStd exB 1 0 = 1 / 2 := by
    unfold fiStd
    rw [show exB.nSeqs = 2 from rfl, Finset.sum_range_succ, Finset.sum_range_one]
    norm_num [exB]
  have hfi11 : fiStd exB 1 1 = 1 / 2 := by
    unfold fiStd
    rw [show exB.nSeqs = 2 from rfl, Finset.sum_range_succ, Finset.sum_range_one]
    norm_num [exB]
  have hfij00 : fijStd exB 0 1 0 0 = 1 / 2 := by
    unfold fijStd
    rw [show exB.nSeqs = 2 from rfl, Finset.sum_range_succ, Finset.sum_range_one]
    norm_num [exB]
  have hfij01 : fijStd exB 0 1 0 1 = 1 / 2 := by
    unfold fijStd
    rw [show exB.nSeqs = 2 from rfl, Finset.sum_range_succ, Finset.sum_range_one]
    norm_num [exB]
  have hfinal : (MSAEstimateSampleSize exP3 exSt3).nEff
      = Real.exp (uncNIter exP3 2 iterationsC) := rfl
  have hmono := exUncN_mono 1 iterationsC (by norm_num [iterationsC])
  have hlog2 : 0 < Real.log 2 := Real.log_pos (by norm_num)
  have hgt : Real.log 2 < uncNIter exP3 2 iterationsC := by
    rw [exUncN1] at hmono
    nlinarith
  have hbig : (exSt3.nSeqs : ℝ) < (MSAEstimateSampleSize exP3 exSt3).nEff := by
    calc (exSt3.nSeqs : ℝ) = 2 := by norm_num [exSt3]
      _ = Real.exp (Real.log 2) := (Real.exp_log (by norm_num)).symm
      _ < Real.exp (uncNIter exP3 2 iterationsC) := Real.exp_lt_exp.2 hgt
      _ = (MSAEstimateSampleSize exP3 exSt3).nEff := hfinal.symm
  refine ⟨exB_weights 0 (by norm_num), exB_weights 1 (by norm_num), exB_nEff,
    ?_, ?_, ?_, ?_, ?_, ?_, rfl, rfl, rfl, hbig⟩
  · rw [hfi00]
    norm_num [exFi3]
  · rw [hfi01]
    norm_num [exFi3]
  · rw [hfi10]
    norm_num [exFi3]
  · rw [hfi11]
    norm_num [exFi3]
  · rw [hfij00]
    norm_num [exFij3]
  · rw [hfij01]
    norm_num [exFij3]

/-! ## Claim C4 -/

/-- Claim C4: for every alignment and every `theta` in `[0,1]`,
MSAReweightSequences gives each sequence `s` the final weight
`scale / (1 + neighborCount(s))`, where `neighborCount(s)` counts the other
sequences `t` whose Hamming identity with `s` over all `nSites` columns
satisfies `identity ≥ (1 - theta) * nSites`. -/
theorem C4_weightFormula (ali : AlignmentQ) (theta scale : ℚ) (s : ℕ)
    (h0 : 0 ≤ theta) (h1 : theta ≤ 1) (hs : s < ali.nSeqs) :
    (MSAReweightSequences ali theta scale).weights s
      = scale / (1 + (neighborCount ali theta s : ℚ)) := by
  unfold MSAReweightSequences
  simp only [if_pos (And.intro h0 h1)]
  rw [seqNeighborWeights_eq ali theta s hs, one_div_mul_eq_div]

/-- Witness for C4 at a two-row alignment with identical rows and
`theta = 1/2`, `scale = 1`: both weights are `scale/2 = 1/2`. -/
theorem C4_weightFormula_w :
    (0 : ℚ) ≤ 1 / 2 ∧ (1 / 2 : ℚ) ≤ 1 ∧
    (MSAReweightSequences exA (1 / 2) 1).weights 0 = 1 / 2 ∧
    (MSAReweightSequences exA (1 / 2) 1).weights 1 = 1 / 2 := by
  have hid : ∀ s t : ℕ, seqId exA s t = 1 := by
    intro s t
    unfold seqId
    simp [exA]
  have hb : ∀ s t : ℕ, nbrCond exA (1 / 2) s t = true := by
    intro s t
    unfold nbrCond
    rw [decide_eq_true_eq, hid s t]
    norm_num [exA]
  have hnc : ∀ s : ℕ, s < 2 → neighborCount exA (1 / 2) s = 1 := by
    intro s hs
    unfold neighborCount
    rw [show exA.nSeqs = 2 from rfl, show List.range 2 = [0, 1] from rfl]
    interval_cases s <;>
      simp only [List.filter_cons, List.filter_nil, hb] <;> simp
  refine ⟨by norm_num, by norm_num, ?_, ?_⟩
  · rw [C4_weightFormula exA (1 / 2) 1 0 (by norm_num) (by norm_num) (by decide),
      hnc 0 (by norm_num)]
    norm_num
  · rw [C4_weightFormula exA (1 / 2) 1 1 (by norm_num) (by norm_num) (by decide),
      hnc 1 (by norm_num)]
    norm_num

/-! ## Claim C5 -/

/-- Claim C5: if `theta` lies outside `[0,1]`, MSAReweightSequences sets
every weight to exactly `scale` and `nEff = nSeqs * scale`. -/
theorem C5_uniformScale (ali : AlignmentQ) (theta scale : ℚ)
    (h : theta < 0 ∨ 1 < theta) :
    (∀ s, (MSAReweightSequences ali theta scale).weights s = scale) ∧
    (MSAReweightSequences ali theta scale).nEff = (ali.nSeqs : ℚ) * scale := by
  have hcond : ¬(0 ≤ theta ∧ theta ≤ 1) := by
    rcases h with h | h <;> intro hc <;> linarith [hc.1, hc.2]
  unfold MSAReweightSequences
  simp only [if_neg hcond]
  refine ⟨fun s => by simp, ?_⟩
  simp [Finset.sum_const, mul_comm]

/-- Witness for C5 at `theta = 2`. -/
theorem C5_uniformScale_w :
    ((2 : ℚ) < 0 ∨ (1 : ℚ) < 2) ∧
    (MSAReweightSequences exA 2 (1 / 2)).weights 0 = 1 / 2 ∧
    (MSAReweightSequences exA 2 (1 / 2)).nEff = (exA.nSeqs : ℚ) * (1 / 2) := by
  have h := C5_uniformScale exA 2 (1 / 2) (Or.inr (by norm_num))
  exact ⟨Or.inr (by norm_num), h.1 0, h.2⟩

/-! ## Claim C6 -/

/-- Claim C6: for every alignment, `theta` and `scale`, the sequential
algorithm (each unordered pair once, updating both sides) and the parallel
algorithm (all ordered pairs per sequence) produce identical weight arrays,
hence also identical `nEff`. -/
theorem C6_seqParEq (ali : AlignmentQ) (theta scale : ℚ) :
    (∀ u, u < ali.nSeqs →
      (MSAReweightSequences ali theta scale).weights u
        = (MSAReweightSequencesPar ali theta scale).weights u) ∧
    (MSAReweightSequences ali theta scale).nEff
      = (MSAReweightSequencesPar ali theta scale).nEff := by
  have hw : ∀ u, u < ali.nSeqs →
      (MSAReweightSequences ali theta scale).weights u
        = (MSAReweightSequencesPar ali theta scale).weights u := by
    intro u hu
    unfold MSAReweightSequences MSAReweightSequencesPar
    by_cases hc : 0 ≤ theta ∧ theta ≤ 1
    · simp only [if_pos hc]
      rw [seqNeighborWeights_eq ali theta u hu, parNeighborWeight_eq]
    · simp only [if_neg hc]
  refine ⟨hw, ?_⟩
  unfold MSAReweightSequences MSAReweightSequencesPar
  by_cases hc : 0 ≤ theta ∧ theta ≤ 1
  · simp only [if_pos hc]
    apply Finset.sum_congr rfl
    intro u hu
    rw [seqNeighborWeights_eq ali theta u (Finset.mem_range.1 hu), parNeighborWeight_eq]
  · simp only [if_neg hc]

/-- Witness for C6 at a concrete alignment. -/
theorem C6_seqParEq_w :
    (MSAReweightSequences exB (1 / 2) 1).weights 0
      = (MSAReweightSequencesPar exB (1 / 2) 1).weights 0 ∧
    (MSAReweightSequences exB (1 / 2) 1).nEff
      = (MSAReweightSequencesPar exB (1 / 2) 1).nEff :=
  ⟨(C6_seqParEq exB (1 / 2) 1).1 0 (by decide), (C6_seqParEq exB (1 / 2) 1).2⟩

/-! ## Claim C7 -/

/-- Claim C7 (amended): for every valid alignment (all codes in range) with
`nEff` equal to the weight total and nonzero, every `fi` row and every
`fij` block sums to exactly 1 under the standard convention; under the
gap-reduced convention the same holds for every site/pair whose conditional
(ungapped) total is nonzero.  (Exact equality implies the claimed `±1e-6`
tolerance.) -/
theorem C7_rowSums (ali : AlignmentQ)
    (hvalid : ∀ s < ali.nSeqs, ∀ i < ali.nSites, ali.seq s i < ali.nCodes)
    (hne : ali.nEff = ∑ s in Finset.range ali.nSeqs, ali.weights s)
    (h0 : ali.nEff ≠ 0) :
    (∀ i < ali.nSites, ∑ a in Finset.range ali.nCodes, fiStd ali i a = 1) ∧
    (∀ i j, i < j → j < ali.nSites →
      ∑ a in Finset.range ali.nCodes, ∑ b in Finset.range ali.nCodes,
        fijStd ali i j a b = 1) ∧
    (∀ i, fsumGR ali i ≠ 0 →
      ∑ a in Finset.range (ali.nCodes - 1), fiGR ali i a = 1) ∧
    (∀ i j, fsumGRij ali i j ≠ 0 →
      ∑ a in Finset.range (ali.nCodes - 1), ∑ b in Finset.range (ali.nCodes - 1),
        fijGR ali i j a b = 1) := by
  refine ⟨?_, ?_, ?_, ?_⟩
  · intro i hi
    unfold fiStd
    rw [Finset.sum_comm]
    have hrow : ∀ s ∈ Finset.range ali.nSeqs,
        (∑ a in Finset.range ali.nCodes,
          if ali.seq s i = a then ali.weights s * (1 / ali.nEff) else 0)
          = ali.weights s * (1 / ali.nEff) := by
      intro s hs
      rw [Finset.sum_ite_eq]
      simp [hvalid s (Finset.mem_range.1 hs) i hi]
    rw [Finset.sum_congr rfl hrow, ← Finset.sum_mul, ← hne, mul_one_div, div_self h0]
  · intro i j hij hj
    have hi : i < ali.nSites := lt_trans hij hj
    unfold fijStd
    have hcell : ∀ s, s < ali.nSeqs → ∀ a,
        (∑ b in Finset.range ali.nCodes,
          if ali.seq s i = a ∧ ali.seq s j = b then ali.weights s * (1 / ali.nEff) else 0)
          = if ali.seq s i = a then ali.weights s * (1 / ali.nEff) else 0 := by
      intro s hsn a
      by_cases h1 : ali.seq s i = a
      · simp only [h1, true_and]
        rw [Finset.sum_ite_eq]
        simp [hvalid s hsn j hj]
      · simp [h1]
    calc (∑ a in Finset.range ali.nCodes, ∑ b in Finset.range ali.nCodes,
            ∑ s in Finset.range ali.nSeqs,
              if ali.seq s i = a ∧ ali.seq s j = b then ali.weights s * (1 / ali.nEff) else 0)
        = ∑ a in Finset.range ali.nCodes, ∑ s in Finset.range ali.nSeqs,
            ∑ b in Finset.range ali.nCodes,
              if ali.seq s i = a ∧ ali.seq s j = b then ali.weights s * (1 / ali.nEff) else 0 :=
          Finset.sum_congr rfl (fun a _ => Finset.sum_comm)
      _ = ∑ s in Finset.range ali.nSeqs, ∑ a in Finset.range ali.nCodes,
            ∑ b in Finset.range ali.nCodes,
              if ali.seq s i = a ∧ ali.seq s j = b then ali.weights s * (1 / ali.nEff) else 0 :=
          Finset.sum_comm
      _ = ∑ s in Finset.range ali.nSeqs, ali.weights s * (1 / ali.nEff) := by
          apply Finset.sum_congr rfl
          intro s hs
          have hsn := Finset.mem_range.1 hs
          rw [Finset.sum_congr rfl (fun a _ => hcell s hsn a), Finset.sum_ite_eq]
          simp [hvalid s hsn i hi]
      _ = 1 := by rw [← Finset.sum_mul, ← hne, mul_one_div, div_self h0]
  · intro i hfs
    unfold fiGR
    rw [← Finset.sum_mul]
    rw [show (∑ a in Finset.range (ali.nCodes - 1), fiGRraw ali i a) = fsumGR ali i from rfl]
    rw [mul_one_div, div_self hfs]
  · intro i j hfs
    unfold fijGR
    have hpull : (∑ a in Finset.range (ali.nCodes - 1), ∑ b in Finset.range (ali.nCodes - 1),
        fijGRraw ali i j a b * (1 / fsumGRij ali i j))
        = (∑ a in Finset.range (ali.nCodes - 1), ∑ b in Finset.range (ali.nCodes - 1),
            fijGRraw ali i j a b) * (1 / fsumGRij ali i j) := by
      rw [Finset.sum_mul]
      apply Finset.sum_congr rfl
      intro a _
      rw [Finset.sum_mul]
    rw [hpull, show (∑ a in Finset.range (ali.nCodes - 1), ∑ b in Finset.range (ali.nCodes - 1),
        fijGRraw ali i j a b) = fsumGRij ali i j from rfl, mul_one_div, div_self hfs]

/-- Witness for C7 at a concrete valid alignment. -/
theorem C7_rowSums_w :
    (∑ a in Finset.range exB.nCodes, fiStd exB 0 a) = 1 ∧
    (∑ a in Finset.range exB.nCodes, ∑ b in Finset.range exB.nCodes,
      fijStd exB 0 1 a b) = 1 := by
  have h := C7_rowSums exB (by decide) (by simp [exB]) (by norm_num [exB])
  exact ⟨h.1 0 (by norm_num [exB]), h.2.1 0 1 (by norm_num) (by norm_num [exB])⟩

/-- Counterexample for C7 as stated: `exGap` is a valid alignment with
positive weights, yet under the gap-reduced convention the `fi` row of its
all-gap site 0 sums to 0, far outside the claimed `1 ± 1e-6`. -/
theorem C7_cx :
    exGap.seq 0 0 < exGap.nCodes ∧ exGap.seq 0 1 < exGap.nCodes ∧
    0 < exGap.weights 0 ∧
    exGap.nEff = (∑ s in Finset.range exGap.nSeqs, exGap.weights s) ∧
    ¬ |(∑ a in Finset.range (exGap.nCodes - 1), fiGR exGap 0 a) - 1| ≤ 1 / 1000000 := by
  refine ⟨by decide, by decide, ?_, ?_, ?_⟩
  · norm_num [exGap]
  · simp [exGap]
  · have hsum : (∑ a in Finset.range (exGap.nCodes - 1), fiGR exGap 0 a) = 0 := by
      norm_num [fiGR, fiGRraw, fsumGR, exGap, Finset.sum_range_succ]
    rw [hsum]
    norm_num

/-! ## Claim C8 -/

/-- Claim C8: under the gap-reduced convention, for nonnegative weights
(and `nEff` the weight total), the doubly-ungapped frequency of every pair
is bounded by each of its marginal ungapped frequencies:
`ungapij(i,j) ≤ min(1 - gapi(i), 1 - gapi(j))`. -/
theorem C8_ungapBound (ali : AlignmentQ)
    (hw : ∀ s < ali.nSeqs, 0 ≤ ali.weights s)
    (hne : ali.nEff = ∑ s in Finset.range ali.nSeqs, ali.weights s)
    (i j : ℕ) :
    ungapijQ ali i j ≤ 1 - gapiQ ali i ∧ ungapijQ ali i j ≤ 1 - gapiQ ali j := by
  have hZ : 0 ≤ 1 / ali.nEff := by
    apply one_div_nonneg.2
    rw [hne]
    exact Finset.sum_nonneg (fun s hs => hw s (Finset.mem_range.1 hs))
  have hmain : ∀ k : ℕ,
      (∀ s, s < ali.nSeqs → (0 < ali.seq s i ∧ 0 < ali.seq s j) → ¬ ali.seq s k = 0) →
      ungapijQ ali i j + gapiQ ali k ≤ 1 := by
    intro k hk
    unfold ungapijQ gapiQ
    rw [← add_mul, ← Finset.sum_add_distrib]
    have hle : (∑ s in Finset.range ali.nSeqs,
        ((if 0 < ali.seq s i ∧ 0 < ali.seq s j then ali.weights s else 0)
          + (if ali.seq s k = 0 then ali.weights s else 0)))
        ≤ ∑ s in Finset.range ali.nSeqs, ali.weights s := by
      apply Finset.sum_le_sum
      intro s hs
      have hsn := Finset.mem_range.1 hs
      by_cases h1 : 0 < ali.seq s i ∧ 0 < ali.seq s j
      · rw [if_pos h1, if_neg (hk s hsn h1)]
        simp
      · rw [if_neg h1]
        by_cases h2 : ali.seq s k = 0
        · simp [h2]
        · simp [h2, hw s hsn]
    calc (∑ s in Finset.range ali.nSeqs,
            ((if 0 < ali.seq s i ∧ 0 < ali.seq s j then ali.weights s else 0)
              + (if ali.seq s k = 0 then ali.weights s else 0))) * (1 / ali.nEff)
        ≤ (∑ s in Finset.range ali.nSeqs, ali.weights s) * (1 / ali.nEff) :=
          mul_le_mul_of_nonneg_right hle hZ
      _ = ali.nEff * (1 / ali.nEff) := by rw [← hne]
      _ ≤ 1 := by
          rw [mul_one_div]
          exact div_self_le_one ali.nEff
  constructor
  · have h := hmain i (fun s _ h1 => by omega)
    linarith
  · have h := hmain j (fun s _ h1 => by omega)
    linarith

/-- Witness for C8 at `exGap`. -/
theorem C8_ungapBound_w :
    ungapijQ exGap 0 1 ≤ 1 - gapiQ exGap 0 ∧
    ungapijQ exGap 0 1 ≤ 1 - gapiQ exGap 1 :=
  C8_ungapBound exGap (fun s _ => by norm_num [exGap]) (by simp [exGap]) 0 1

/-! ## Claim C9 -/

/-- Claim C9 (code evaluated at the failing input): the site-pair selection
of MSAEstimateSampleSize is pure `RandomInt` rejection — it never inspects
`fi` — so the degenerate all-gap site 0 of `exGap` (whose gap-reduced `fi`
row is identically zero) is selected whenever the generator draws it; and
on the resulting all-zero CDF the inversion scan `while (U > cdf[a]) a++`
walks past index `nCodes - 1` (here: reaches `nCodes = 2`). -/
theorem C9_noGuard :
    exFi9 0 0 = 0 ∧ exFi9 0 1 = 0 ∧
    exOracle9.iDraw = 0 ∧
    firstDiff exOracle9.iDraw exOracle9.jDraws 0 exOracle9.jFuel = 1 ∧
    scanFrom (cdfOf (exOracle9.distI (fun _ => 0))) (1 / 2) 0 2 = 2 := by
  refine ⟨?_, ?_, rfl, ?_, ?_⟩
  · have h : fiGR exGap 0 0 = 0 := by
      norm_num [fiGR, fiGRraw, fsumGR, exGap, Finset.sum_range_succ]
    rw [exFi9, h]
    norm_num
  · have h : fiGR exGap 0 1 = 0 := by
      norm_num [fiGR, fiGRraw, fsumGR, exGap, Finset.sum_range_succ]
    rw [exFi9, h]
    norm_num
  · norm_num [firstDiff, exOracle9]
  · have hcdf : ∀ a, cdfOf (exOracle9.distI (fun _ => 0)) a = 0 := by
      intro a
      simp [cdfOf, exOracle9]
    rw [scanFrom, if_neg (by rw [hcdf]; norm_num)]
    rw [scanFrom, if_neg (by rw [hcdf]; norm_num)]
    rfl

/-! ## Claim C10 -/

/-- Claim C10: under the standard convention the pairwise marginals are
consistent with the sitewise marginals: summing `fij(i,j,a,b)` over `b`
gives `fi(i,a)`, and summing over `a` gives `fi(j,b)` — exactly, since both
sides are the same weighted sums over sequences. -/
theorem C10_consistency (ali : AlignmentQ) (i j : ℕ)
    (hi : ∀ s < ali.nSeqs, ali.seq s i < ali.nCodes)
    (hj : ∀ s < ali.nSeqs, ali.seq s j < ali.nCodes) :
    (∀ a, (∑ b in Finset.range ali.nCodes, fijStd ali i j a b) = fiStd ali i a) ∧
    (∀ b, (∑ a in Finset.range ali.nCodes, fijStd ali i j a b) = fiStd ali j b) := by
  constructor
  · intro a
    unfold fijStd fiStd
    rw [Finset.sum_comm]
    apply Finset.sum_congr rfl
    intro s hs
    have hsn := Finset.mem_range.1 hs
    by_cases h1 : ali.seq s i = a
    · simp only [h1, true_and]
      rw [Finset.sum_ite_eq]
      simp [h1, hj s hsn]
    · simp [h1]
  · intro b
    unfold fijStd fiStd
    rw [Finset.sum_comm]
    apply Finset.sum_congr rfl
    intro s hs
    have hsn := Finset.mem_range.1 hs
    by_cases h2 : ali.seq s j = b
    · simp only [h2, and_true]
      rw [Finset.sum_ite_eq]
      simp [h2, hi s hsn]
    · simp [h2]

/-- Witness for C10 at a concrete alignment. -/
theorem C10_consistency_w :
    (∑ b in Finset.range exB.nCodes, fijStd exB 0 1 0 b) = fiStd exB 0 0 ∧
    (∑ a in Finset.range exB.nCodes, fijStd exB 0 1 a 1) = fiStd exB 1 1 :=
  ⟨(C10_consistency exB 0 1 (by decide) (by decide)).1 0,
   (C10_consistency exB 0 1 (by decide) (by decide)).2 1⟩
